import Mathlib

/-!
Shallow embedding of the two dynamic-array classes of the repository:

* `DynamicArray`     — `src/dynamic_array.py`, class `DynamicArray`
* `MerabsDinamicArr` — `src/my_dinamic_arr.py`, class `MerabsDinamicArr`

Python `None` is modelled as `Option.none`: every slot of the backing list
holds an `Option β` (a live value `some x`, or the empty marker / stored
`None`, which Python does not distinguish).  A Python call that raises an
uncaught exception is modelled as `Option.none` at the result type of the
operation; a call that returns normally is `some`.
-/

set_option autoImplicit false

universe u

variable {γ : Type u} {β : Type u}

/-- Python list read `l[i]`: a negative index counts from the end
(`l[-1]` is the last element); an index outside `[-len(l), len(l))`
raises `IndexError` (modelled as `none`). -/
def pyGet (l : List γ) (i : Int) : Option γ :=
  if 0 ≤ i then l[i.toNat]?
  else if 0 ≤ i + l.length then l[(i + l.length).toNat]?
  else none

/-- Python list write `l[i] = v`: same index rule as `pyGet`; returns the
updated list, or `none` for the `IndexError` case. -/
def pySet (l : List γ) (i : Int) (v : γ) : Option (List γ) :=
  if 0 ≤ i then
    if i < l.length then some (l.set i.toNat v) else none
  else if 0 ≤ i + l.length then some (l.set (i + l.length).toNat v)
  else none

/-- The copy loop `for i in range(n): dst[i] = src[i]` shared by both
resize routines: it fails with `IndexError` when `n` exceeds either
list's length, otherwise the first `n` slots of `dst` become the first
`n` slots of `src`. -/
def copyFirst (n : Nat) (src dst : List γ) : Option (List γ) :=
  if n ≤ src.length ∧ n ≤ dst.length then some (src.take n ++ dst.drop n)
  else none

/-- State of `dynamic_array.DynamicArray`: fields `_capacity`, `_len`,
`_arr`.  `_capacity` is kept as a `Nat` because the constructor rejects
negative capacities and every later assignment (`1`, doubling,
`_capacity = _len`) is non-negative. -/
structure DynamicArray (β : Type u) where
  capacity : Nat
  len : Nat
  arr : List (Option β)
deriving DecidableEq

/-- State of `my_dinamic_arr.MerabsDinamicArr`: fields `capacity`, `len`,
`arr`.  The constructor performs no validation, so `capacity` can be any
integer (Python `[None] * c` is empty for `c ≤ 0`). -/
structure MerabsDinamicArr (β : Type u) where
  capacity : Int
  len : Nat
  arr : List (Option β)
deriving DecidableEq

namespace DynamicArray

/-- `__init__(capacity)`: raises `ValueError` when `capacity < 0`,
otherwise allocates `[None] * capacity`. -/
def init (c : Int) : Option (DynamicArray β) :=
  if c < 0 then none
  else some ⟨c.toNat, 0, List.replicate c.toNat none⟩

/-- `size()` -/
def size (a : DynamicArray β) : Nat := a.len

/-- `is_empty()` -/
def is_empty (a : DynamicArray β) : Bool := a.size == 0

/-- `get(index)` — unchecked: `return self._arr[index]` (raw Python list
indexing on the backing store). -/
def get (a : DynamicArray β) (i : Int) : Option (Option β) :=
  pyGet a.arr i

/-- `set(index, elem)` — unchecked: `self._arr[index] = elem`. -/
def set (a : DynamicArray β) (i : Int) (v : Option β) : Option (DynamicArray β) :=
  (pySet a.arr i v).map fun l => ⟨a.capacity, a.len, l⟩

/-- `clear()`: `for i in range(self._len): self._arr[i] = None` then
`self._len = 0` (the loop raises when `_len` exceeds the backing list). -/
def clear (a : DynamicArray β) : Option (DynamicArray β) :=
  if a.len ≤ a.arr.length then
    some ⟨a.capacity, 0, List.replicate a.len none ++ a.arr.drop a.len⟩
  else none

/-- The capacity `add` leaves behind: it grows exactly when
`_len + 1 >= _capacity`, to `1` from capacity `0` and by doubling
otherwise. -/
def newcapacity (a : DynamicArray β) : Nat :=
  if a.len + 1 ≥ a.capacity then
    if a.capacity = 0 then 1 else a.capacity * 2
  else a.capacity

/-- The growth step of `add`: `if self._len + 1 >= self._capacity`, set
the new capacity (`1` from `0`, doubled otherwise), allocate
`new_arr = [None] * self._capacity`, run the copy loop and swap;
otherwise leave capacity and storage alone.  Returns the capacity and
backing list the subsequent write acts on. -/
def grow (a : DynamicArray β) : Option (Nat × List (Option β)) :=
  if a.len + 1 ≥ a.capacity then
    (copyFirst a.len a.arr (List.replicate a.newcapacity none)).map fun l =>
      (a.newcapacity, l)
  else some (a.capacity, a.arr)

/-- `add(elem)`: the growth step runs before the write
`self._arr[self._len] = elem`; then `_len += 1`. -/
def add (a : DynamicArray β) (v : Option β) : Option (DynamicArray β) :=
  a.grow.bind fun p => (pySet p.2 (a.len : Int) v).map fun l => ⟨p.1, a.len + 1, l⟩

/-- `remove_at(rm_index)`: raises `IndexError` when
`rm_index >= self._len or rm_index < 0` (before any mutation); otherwise
reads `data = self._arr[rm_index]`, rebuilds a backing list of exactly
`_len - 1` slots holding the live elements except index `rm_index`
(in order), sets `_len -= 1` and `_capacity = _len`, and returns `data`. -/
def remove_at (a : DynamicArray β) (i : Int) : Option (Option β × DynamicArray β) :=
  if (a.len : Int) ≤ i ∨ i < 0 then none
  else (pyGet a.arr i).bind fun data =>
    if a.len ≤ a.arr.length then
      some (data, ⟨a.len - 1, a.len - 1, (a.arr.take a.len).eraseIdx i.toNat⟩)
    else none

/-- The scan of `index_of(obj)`: `for i in range(self._len)` with the
`None` query special-cased exactly as in the source (`obj is None`
matches only `None` slots; otherwise `obj == self._arr[i]`, and in
Python `obj == None` is false for a non-`None` value `obj` of a plain
data type). -/
def idxD [DecidableEq β] (q : Option β) : List (Option β) → Nat → Int
  | [], _ => -1
  | s :: rest, i =>
    match q with
    | none => if s = none then (i : Int) else idxD none rest (i + 1)
    | some x =>
      match s with
      | none => idxD (some x) rest (i + 1)
      | some y => if x = y then (i : Int) else idxD (some x) rest (i + 1)

/-- `index_of(obj)`: linear scan of the first `_len` slots, `-1` when
absent.  The loop only reads `self._arr[i]` for `i < self._len`; on every
state with `_len ≤ len(_arr)` (all states the class constructs) it is the
scan of `take _len` of the backing list. -/
def index_of [DecidableEq β] (a : DynamicArray β) (q : Option β) : Int :=
  idxD q (a.arr.take a.len) 0

/-- `contains(obj)` -/
def contains [DecidableEq β] (a : DynamicArray β) (q : Option β) : Bool :=
  decide (a.index_of q ≠ -1)

/-- `remove(obj)`: `index_of`, `-1 → False`, otherwise `remove_at(index)`
and `True`. -/
def remove [DecidableEq β] (a : DynamicArray β) (q : Option β) :
    Option (Bool × DynamicArray β) :=
  let index := a.index_of q
  if index = -1 then some (false, a)
  else (a.remove_at index).map fun p => (true, p.2)

/-- `__iter__`: `for i in range(self._len): yield self._arr[i]` — every
slot of the live region is yielded, in index order (reads are in range
whenever `_len ≤ len(_arr)`, which holds on every constructible state). -/
def iter (a : DynamicArray β) : List (Option β) :=
  a.arr.take a.len

/-- The spec's data-model invariant `0 ≤ length ≤ capacity`
(`length ≥ 0` is inherent to `Nat`). -/
def Inv (a : DynamicArray β) : Prop := a.len ≤ a.capacity

/-- The backing list physically has `_capacity` slots. -/
def Wf (a : DynamicArray β) : Prop := a.arr.length = a.capacity

/-- Slots of the dead region `[length, capacity)` hold the empty marker
`None` (the spec's "strict variant"; it holds on every state reachable
without the raw `set`). -/
def DeadNone (a : DynamicArray β) : Prop :=
  ∀ i : Nat, a.len ≤ i → i < a.arr.length → a.arr[i]? = some none

/-- A whole run of `add` calls, one per list element, left to right. -/
def add_all (a : DynamicArray β) : List (Option β) → Option (DynamicArray β)
  | [] => some a
  | v :: rest => (a.add v).bind fun a2 => a2.add_all rest

end DynamicArray

namespace MerabsDinamicArr

/-- `__init__(capacity)`: no validation at all — stores `capacity` as
given and allocates `[None] * capacity` (the empty list when
`capacity ≤ 0`).  Construction never fails. -/
def init (c : Int) : MerabsDinamicArr β :=
  ⟨c, 0, List.replicate c.toNat none⟩

/-- `size()` -/
def size (a : MerabsDinamicArr β) : Nat := a.len

/-- `is_empty()` -/
def is_empty (a : MerabsDinamicArr β) : Bool := a.len == 0

/-- `get(index)` — checked: raises when `index < 0 or index >= self.len`,
otherwise `return self.arr[index]`. -/
def get (a : MerabsDinamicArr β) (i : Int) : Option (Option β) :=
  if i < 0 ∨ (a.len : Int) ≤ i then none else pyGet a.arr i

/-- `set_at(index, value)` — checked; replaces, does not grow. -/
def set_at (a : MerabsDinamicArr β) (i : Int) (v : Option β) :
    Option (MerabsDinamicArr β) :=
  if i < 0 ∨ (a.len : Int) ≤ i then none
  else (pySet a.arr i v).map fun l => ⟨a.capacity, a.len, l⟩

/-- `_resize()`: only when `self.len >= self.capacity` ("resize when
full") — `self.capacity *= 2` (no special case for capacity `0`),
`new_arr = [None] * self.capacity`, copy loop, swap. -/
def resize (a : MerabsDinamicArr β) : Option (MerabsDinamicArr β) :=
  if (a.len : Int) ≥ a.capacity then
    (copyFirst a.len a.arr (List.replicate (a.capacity * 2).toNat none)).map fun l =>
      ⟨a.capacity * 2, a.len, l⟩
  else some a

/-- `add(value)`: `self._resize()`, then the write
`self.arr[self.len] = value` (which raises `IndexError` when the backing
list has no slot `self.len`), then `self.len += 1`. -/
def add (a : MerabsDinamicArr β) (v : Option β) : Option (MerabsDinamicArr β) :=
  a.resize.bind fun a2 =>
    (pySet a2.arr (a2.len : Int) v).map fun l => ⟨a2.capacity, a2.len + 1, l⟩

/-- `remove_at(index)`: raises when `index < 0 or index >= self.len`
(before any mutation); otherwise shifts the elements after `index` one
slot left, clears slot `len - 1` to `None`, decrements `len` — and
returns `None`: the Python function has no `return` statement, so its
value is always `None` (modelled as the first component `none`). -/
def remove_at (a : MerabsDinamicArr β) (i : Int) :
    Option (Option β × MerabsDinamicArr β) :=
  if i < 0 ∨ (a.len : Int) ≤ i then none
  else if a.len ≤ a.arr.length then
    some (none, ⟨a.capacity, a.len - 1,
      a.arr.take i.toNat ++ (a.arr.drop (i.toNat + 1)).take (a.len - 1 - i.toNat)
        ++ none :: a.arr.drop a.len⟩)
  else none

/-- The scan of `index_of(value)`: `if self.arr[i] == value` — Python
`==` makes a `None` slot match exactly the `None` query, so the test is
plain slot equality. -/
def idxM [DecidableEq β] (q : Option β) : List (Option β) → Nat → Int
  | [], _ => -1
  | s :: rest, i => if s = q then (i : Int) else idxM q rest (i + 1)

/-- `index_of(value)`: scan of the first `len` slots, `-1` when absent. -/
def index_of [DecidableEq β] (a : MerabsDinamicArr β) (q : Option β) : Int :=
  idxM q (a.arr.take a.len) 0

/-- `contains(value)` -/
def contains [DecidableEq β] (a : MerabsDinamicArr β) (q : Option β) : Bool :=
  decide (a.index_of q ≠ -1)

/-- `remove(value)`: `index_of`, then `remove_at` and `True` when found,
else `False`. -/
def remove [DecidableEq β] (a : MerabsDinamicArr β) (q : Option β) :
    Option (Bool × MerabsDinamicArr β) :=
  let index := a.index_of q
  if index ≠ -1 then (a.remove_at index).map fun p => (true, p.2)
  else some (false, a)

/-- `__iter__`: `for i in range(self.len): if self.arr[i] is not None:
yield self.arr[i]` — note the guard: `None` slots of the live region are
skipped. -/
def iter (a : MerabsDinamicArr β) : List (Option β) :=
  (a.arr.take a.len).filter fun s => s.isSome

/-- The spec's invariant `0 ≤ length ≤ capacity` on this class
(capacity is an `Int` here, so `len ≤ capacity` also forces
`capacity ≥ 0`). -/
def Inv (a : MerabsDinamicArr β) : Prop := (a.len : Int) ≤ a.capacity

/-- The backing list physically has `max capacity 0` slots. -/
def Wf (a : MerabsDinamicArr β) : Prop := a.arr.length = a.capacity.toNat

/-- A whole run of `add` calls, one per list element, left to right. -/
def add_all (a : MerabsDinamicArr β) : List (Option β) → Option (MerabsDinamicArr β)
  | [] => some a
  | v :: rest => (a.add v).bind fun a2 => a2.add_all rest

end MerabsDinamicArr

/-! ### Generic helper lemmas -/

section Helpers

variable {γ : Type u}

theorem take_set_of_le (l : List γ) (n : Nat) (v : γ) (m : Nat) (h : m ≤ n) :
    (l.set n v).take m = l.take m := by
  induction l generalizing n m with
  | nil => simp
  | cons x xs ih =>
    cases n with
    | zero =>
      have hm : m = 0 := Nat.le_zero.mp h
      subst hm
      simp
    | succ n =>
      cases m with
      | zero => simp
      | succ m => simpa using ih n m (Nat.le_of_succ_le_succ h)

theorem take_succ_of_getElem (l : List γ) (n : Nat) (v : γ) (h : l[n]? = some v) :
    l.take (n + 1) = l.take n ++ [v] := by
  rw [List.take_succ, h]
  rfl

theorem eraseIdx_take_succ (l : List γ) (n : Nat) :
    (l.take (n + 1)).eraseIdx n = l.take n := by
  rw [List.eraseIdx_eq_take_drop_succ, List.take_take, List.drop_take]
  simp

theorem pyGet_natCast (l : List γ) (n : Nat) : pyGet l (n : Int) = l[n]? := by
  simp [pyGet, Int.toNat_natCast]

theorem pySet_natCast (l : List γ) (n : Nat) (v : γ) :
    pySet l (n : Int) v = if n < l.length then some (l.set n v) else none := by
  unfold pySet
  rw [if_pos (Int.natCast_nonneg n)]
  by_cases h : n < l.length
  · rw [if_pos (by exact_mod_cast h), if_pos h, Int.toNat_natCast]
  · rw [if_neg (by exact_mod_cast h), if_neg h]

theorem pySet_natCast_eq_some {l l2 : List γ} {n : Nat} {v : γ}
    (h : pySet l (n : Int) v = some l2) : n < l.length ∧ l2 = l.set n v := by
  rw [pySet_natCast] at h
  by_cases hn : n < l.length
  · rw [if_pos hn] at h
    exact ⟨hn, (Option.some_injective _ h).symm⟩
  · rw [if_neg hn] at h
    cases h

theorem copyFirst_eq_some {n : Nat} {src dst l : List γ}
    (h : copyFirst n src dst = some l) :
    n ≤ src.length ∧ n ≤ dst.length ∧ l = src.take n ++ dst.drop n := by
  unfold copyFirst at h
  by_cases hc : n ≤ src.length ∧ n ≤ dst.length
  · rw [if_pos hc] at h
    exact ⟨hc.1, hc.2, (Option.some_injective _ h).symm⟩
  · rw [if_neg hc] at h
    cases h

theorem copyFirst_pos {n : Nat} {src dst : List γ}
    (h1 : n ≤ src.length) (h2 : n ≤ dst.length) :
    copyFirst n src dst = some (src.take n ++ dst.drop n) := by
  unfold copyFirst
  rw [if_pos ⟨h1, h2⟩]

end Helpers

/-! ### Behaviour of `DynamicArray.add` -/

namespace DynamicArray

variable {β : Type u}

theorem newcapacity_pos (a : DynamicArray β) (h : a.len + 1 ≥ a.capacity)
    (hI : a.Inv) : a.len < a.newcapacity := by
  have h1 : a.len ≤ a.capacity := hI
  unfold newcapacity
  rw [if_pos h]
  by_cases h0 : a.capacity = 0
  · rw [if_pos h0]
    omega
  · rw [if_neg h0]
    omega

/-- Full characterisation of a successful `add` on a well-formed state:
the new capacity follows the growth rule, the backing list has exactly
that many slots, the previously live elements are unchanged and in
order, and the new element sits at index `_len`. -/
theorem add_spec (a : DynamicArray β) (v : Option β) (hI : a.Inv) (hW : a.Wf) :
    ∃ l : List (Option β),
      a.add v = some ⟨a.newcapacity, a.len + 1, l⟩ ∧
      l.length = a.newcapacity ∧
      l.take a.len = a.arr.take a.len ∧
      l[a.len]? = some v ∧
      a.len + 1 ≤ a.newcapacity := by
  have hcap : a.arr.length = a.capacity := hW
  have hlenarr : a.len ≤ a.arr.length := by
    rw [hW]; exact hI
  by_cases h : a.len + 1 ≥ a.capacity
  · have hlt : a.len < a.newcapacity := newcapacity_pos a h hI
    have hcopy :
        copyFirst a.len a.arr (List.replicate a.newcapacity (none : Option β)) =
          some (a.arr.take a.len ++ (List.replicate a.newcapacity (none : Option β)).drop a.len) :=
      copyFirst_pos hlenarr (by simpa using Nat.le_of_lt hlt)
    have htklen : (a.arr.take a.len).length = a.len := by
      simp [List.length_take]; omega
    have harr2 :
        (a.arr.take a.len ++ (List.replicate a.newcapacity (none : Option β)).drop a.len).length
          = a.newcapacity := by
      simp [List.length_append, htklen]
      omega
    refine ⟨(a.arr.take a.len ++ (List.replicate a.newcapacity (none : Option β)).drop a.len).set a.len v,
      ?_, ?_, ?_, ?_, hlt⟩
    · unfold add grow
      rw [if_pos h, hcopy]
      simp only [Option.map_some', Option.some_bind]
      rw [pySet_natCast, if_pos (by rw [harr2]; exact hlt)]
      rfl
    · rw [List.length_set, harr2]
    · rw [take_set_of_le _ _ _ _ (le_refl a.len),
        List.take_append_of_le_length (by rw [htklen]),
        List.take_take, Nat.min_self]
    · exact List.getElem?_set_eq_of_lt v (by rw [harr2]; exact hlt)
  · have hfit : a.len + 1 < a.capacity := by omega
    have hnc : a.newcapacity = a.capacity := by
      unfold newcapacity; rw [if_neg h]
    refine ⟨a.arr.set a.len v, ?_, ?_, ?_, ?_, ?_⟩
    · unfold add grow
      rw [if_neg h]
      simp only [Option.some_bind]
      rw [pySet_natCast, if_pos (by omega), hnc]
      rfl
    · rw [List.length_set, hW, hnc]
    · exact take_set_of_le _ _ _ _ (le_refl a.len)
    · exact List.getElem?_set_eq_of_lt v (by omega)
    · omega

/-- A successful `add` — from any state at all — increments `_len` and
re-establishes `_len ≤ _capacity`. -/
theorem add_eq_some_inv {a a2 : DynamicArray β} {v : Option β}
    (h : a.add v = some a2) : a2.len = a.len + 1 ∧ a2.Inv := by
  unfold add at h
  obtain ⟨p, hp, h2⟩ := Option.bind_eq_some.mp h
  obtain ⟨l1, hset, ha2⟩ := Option.map_eq_some'.mp h2
  obtain ⟨hlt, hl1⟩ := pySet_natCast_eq_some hset
  unfold grow at hp
  by_cases ht : a.len + 1 ≥ a.capacity
  · rw [if_pos ht] at hp
    obtain ⟨l0, hcopy, hpl⟩ := Option.map_eq_some'.mp hp
    obtain ⟨hsrc, hdst, hl0⟩ := copyFirst_eq_some hcopy
    have hlen0 : l0.length = a.newcapacity := by
      subst hl0
      simp only [List.length_append, List.length_take, List.length_drop,
        List.length_replicate]
      have : a.len ≤ a.newcapacity := by simpa using hdst
      omega
    subst hpl
    subst ha2
    constructor
    · rfl
    · show a.len + 1 ≤ a.newcapacity
      rw [← hlen0]
      simp only at hlt
      omega
  · rw [if_neg ht] at hp
    obtain rfl : (a.capacity, a.arr) = p := Option.some_injective _ hp
    subst ha2
    exact ⟨rfl, by show a.len + 1 ≤ a.capacity; omega⟩

/-- A run of `add` calls from a well-formed state always succeeds, adds
the values at the end of the live region in order, and keeps the state
well formed. -/
theorem add_all_spec (xs : List (Option β)) :
    ∀ a : DynamicArray β, a.Inv → a.Wf →
      ∃ a2, a.add_all xs = some a2 ∧ a2.Inv ∧ a2.Wf ∧
        a2.len = a.len + xs.length ∧
        a2.arr.take a2.len = a.arr.take a.len ++ xs := by
  induction xs with
  | nil =>
    intro a hI hW
    exact ⟨a, rfl, hI, hW, by simp, by simp⟩
  | cons v rest ih =>
    intro a hI hW
    obtain ⟨l, hadd, hlen, htake, hget, hle⟩ := add_spec a v hI hW
    obtain ⟨a2, hrest, hI2, hW2, hlen2, htake2⟩ :=
      ih ⟨a.newcapacity, a.len + 1, l⟩ hle hlen
    refine ⟨a2, ?_, hI2, hW2, ?_, ?_⟩
    · show (a.add v).bind (fun a1 => a1.add_all rest) = some a2
      rw [hadd]
      exact hrest
    · simp only at hlen2
      simp [hlen2, List.length_cons]
      omega
    · rw [htake2]
      simp only
      rw [take_succ_of_getElem l a.len v hget, htake]
      simp

end DynamicArray

/-! ### Behaviour of `MerabsDinamicArr.add` -/

namespace MerabsDinamicArr

variable {β : Type u}

/-- What a successful `add` guarantees, from any state at all: `len` is
incremented, the write really landed inside the backing list, the
previously live slots are untouched, the value sits at slot `len`, the
resulting capacity is the `_resize` one, and `len ≤ capacity` holds
afterwards. -/
theorem add_eq_some_spec {a a2 : MerabsDinamicArr β} {v : Option β}
    (h : a.add v = some a2) :
    a2.len = a.len + 1 ∧
    a2.len ≤ a2.arr.length ∧
    a2.arr.take a.len = a.arr.take a.len ∧
    a2.arr[a.len]? = some v ∧
    a2.capacity = (if (a.len : Int) ≥ a.capacity then a.capacity * 2 else a.capacity) ∧
    a2.Inv := by
  unfold add at h
  obtain ⟨amid, hmid, h2⟩ := Option.bind_eq_some.mp h
  unfold resize at hmid
  by_cases ht : (a.len : Int) ≥ a.capacity
  · rw [if_pos ht] at hmid
    obtain ⟨l0, hcopy, hamid⟩ := Option.map_eq_some'.mp hmid
    obtain ⟨hsrc, hdst, hl0⟩ := copyFirst_eq_some hcopy
    subst hamid
    obtain ⟨l1, hset, ha2⟩ := Option.map_eq_some'.mp h2
    simp only at hset ha2
    obtain ⟨hlt, hl1⟩ := pySet_natCast_eq_some hset
    subst ha2
    subst hl1
    have hdst2 : a.len ≤ (a.capacity * 2).toNat := by simpa using hdst
    have hlen0 : l0.length = (a.capacity * 2).toNat := by
      subst hl0
      simp only [List.length_append, List.length_take, List.length_drop,
        List.length_replicate]
      omega
    have htk : (a.arr.take a.len).length = a.len := by
      simp [List.length_take]; omega
    refine ⟨rfl, ?_, ?_, ?_, ?_, ?_⟩
    · simpa [List.length_set] using hlt
    · show (l0.set a.len v).take a.len = a.arr.take a.len
      rw [take_set_of_le _ _ _ _ (le_refl a.len)]
      subst hl0
      rw [List.take_append_of_le_length (by rw [htk]),
        List.take_take, Nat.min_self]
    · exact List.getElem?_set_eq_of_lt v hlt
    · rw [if_pos ht]
    · show ((a.len + 1 : Nat) : Int) ≤ a.capacity * 2
      rw [hlen0] at hlt
      omega
  · rw [if_neg ht] at hmid
    obtain rfl : a = amid := Option.some_injective _ hmid
    obtain ⟨l1, hset, ha2⟩ := Option.map_eq_some'.mp h2
    obtain ⟨hlt, hl1⟩ := pySet_natCast_eq_some hset
    subst ha2
    subst hl1
    refine ⟨rfl, ?_, ?_, ?_, ?_, ?_⟩
    · simpa [List.length_set] using hlt
    · exact take_set_of_le _ _ _ _ (le_refl a.len)
    · exact List.getElem?_set_eq_of_lt v hlt
    · rw [if_neg ht]
    · show ((a.len + 1 : Nat) : Int) ≤ a.capacity
      omega

/-- A successful run of `add` calls appends exactly the given values, in
order, at the end of the live region. -/
theorem add_all_eq_some_spec (xs : List (Option β)) :
    ∀ a a2 : MerabsDinamicArr β, a.add_all xs = some a2 →
      a2.len = a.len + xs.length ∧
      a2.arr.take a2.len = a.arr.take a.len ++ xs := by
  induction xs with
  | nil =>
    intro a a2 h
    obtain rfl : a = a2 := Option.some_injective _ h
    simp
  | cons v rest ih =>
    intro a a2 h
    obtain ⟨a1, hadd, hrest⟩ := Option.bind_eq_some.mp h
    obtain ⟨hlen1, hwf1, htk1, hget1, _, _⟩ := add_eq_some_spec hadd
    obtain ⟨hlen2, htk2⟩ := ih a1 a2 hrest
    constructor
    · rw [hlen2, hlen1, List.length_cons]
      omega
    · rw [htk2, hlen1, take_succ_of_getElem a1.arr a.len v hget1, htk1]
      simp

end MerabsDinamicArr

/-! ### The linear scans of `index_of` -/

namespace MerabsDinamicArr

variable {β : Type u}

theorem idxM_of_not_mem [DecidableEq β] (q : Option β) (l : List (Option β)) :
    ∀ n : Nat, q ∉ l → idxM q l n = -1 := by
  induction l with
  | nil => intro n _; rfl
  | cons s rest ih =>
    intro n h
    have hs : ¬s = q := fun he => h (he ▸ List.mem_cons_self s rest)
    have hr : q ∉ rest := fun hm => h (List.mem_cons_of_mem s hm)
    simp only [idxM]
    rw [if_neg hs]
    exact ih (n + 1) hr

theorem idxM_of_mem [DecidableEq β] {q : Option β} {l : List (Option β)} :
    ∀ n : Nat, q ∈ l →
      ∃ j : Nat, idxM q l n = ((n + j : Nat) : Int) ∧ j < l.length ∧
        l[j]? = some q ∧ ∀ k : Nat, k < j → l[k]? ≠ some q := by
  induction l with
  | nil => intro n h; cases h
  | cons s rest ih =>
    intro n h
    by_cases hs : s = q
    · refine ⟨0, ?_, by simp, by simp [hs], by omega⟩
      simp only [idxM]
      rw [if_pos hs]
      simp
    · have hr : q ∈ rest := by
        rcases List.mem_cons.mp h with he | hm
        · exact absurd he.symm hs
        · exact hm
      obtain ⟨j, h1, h2, h3, h4⟩ := ih (n + 1) hr
      refine ⟨j + 1, ?_, by simpa using h2, by simpa using h3, ?_⟩
      · simp only [idxM]
        rw [if_neg hs, h1]
        congr 1
        omega
      · intro k hk
        cases k with
        | zero =>
          simpa using fun he => hs he
        | succ k =>
          simpa using h4 k (by omega)

end MerabsDinamicArr

namespace DynamicArray

variable {β : Type u}

/-- The reference scan (with its `None` special case) computes the same
index as plain slot equality: a `None` query matches exactly the `None`
slots, and a non-`None` query never matches a `None` slot. -/
theorem idxD_eq_idxM [DecidableEq β] (q : Option β) (l : List (Option β)) :
    ∀ n : Nat, idxD q l n = MerabsDinamicArr.idxM q l n := by
  induction l with
  | nil => intro n; cases q <;> rfl
  | cons s rest ih =>
    intro n
    cases q with
    | none =>
      cases s with
      | none => simp [idxD, MerabsDinamicArr.idxM]
      | some y => simpa [idxD, MerabsDinamicArr.idxM] using ih (n + 1)
    | some x =>
      cases s with
      | none => simpa [idxD, MerabsDinamicArr.idxM] using ih (n + 1)
      | some y =>
        by_cases hxy : x = y
        · subst hxy
          simp [idxD, MerabsDinamicArr.idxM]
        · have : ¬(some y = some x) := by simpa [eq_comm] using hxy
          simp only [idxD, MerabsDinamicArr.idxM]
          rw [if_neg hxy, if_neg this]
          exact ih (n + 1)

end DynamicArray

/-! ### Behaviour of `remove_at` on a valid index -/

namespace DynamicArray

variable {β : Type u}

theorem remove_at_nat_spec (a : DynamicArray β) (j : Nat) (hj : j < a.len)
    (hw : a.len ≤ a.arr.length) :
    ∃ d, a.arr[j]? = some d ∧
      a.remove_at (j : Int) =
        some (d, ⟨a.len - 1, a.len - 1, (a.arr.take a.len).eraseIdx j⟩) := by
  have hjl : j < a.arr.length := by omega
  refine ⟨a.arr[j], List.getElem?_eq_getElem hjl, ?_⟩
  unfold remove_at
  rw [if_neg (by omega)]
  rw [pyGet_natCast, List.getElem?_eq_getElem hjl]
  simp only [Option.some_bind]
  rw [if_pos hw, Int.toNat_natCast]

end DynamicArray

namespace MerabsDinamicArr

variable {β : Type u}

theorem merabs_remove_at_nat_spec (a : MerabsDinamicArr β) (j : Nat) (hj : j < a.len)
    (hw : a.len ≤ a.arr.length) :
    a.remove_at (j : Int) =
      some (none, ⟨a.capacity, a.len - 1,
        a.arr.take j ++ (a.arr.drop (j + 1)).take (a.len - 1 - j)
          ++ none :: a.arr.drop a.len⟩) := by
  unfold remove_at
  rw [if_neg (by omega)]
  rw [if_pos hw, Int.toNat_natCast]

end MerabsDinamicArr

/-! ### The claims -/

/-- C1: for every fresh dynamic array and every sequence of N `add` calls,
`size()` afterwards equals N and `get(i)` returns the i-th added value for
each `i < N` (insertion order is preserved by append).  First conjunct:
`DynamicArray`, any valid initial capacity.  Second conjunct:
`MerabsDinamicArr`, any initial capacity, conditioned on the `add` calls
returning normally. -/
theorem c1_fresh_adds_size_and_get {β : Type u} :
    (∀ c : Int, 0 ≤ c → ∀ xs : List (Option β),
      ∃ a0 a : DynamicArray β, DynamicArray.init c = some a0 ∧
        a0.add_all xs = some a ∧ a.size = xs.length ∧
        ∀ (i : Nat) (h : i < xs.length), a.get (i : Int) = some (xs.get ⟨i, h⟩)) ∧
    (∀ (c : Int) (xs : List (Option β)) (a : MerabsDinamicArr β),
      (MerabsDinamicArr.init c).add_all xs = some a →
        a.size = xs.length ∧
        ∀ (i : Nat) (h : i < xs.length), a.get (i : Int) = some (xs.get ⟨i, h⟩)) := by
  constructor
  · intro c hc xs
    have hinit : DynamicArray.init (β := β) c =
        some ⟨c.toNat, 0, List.replicate c.toNat none⟩ := by
      unfold DynamicArray.init
      rw [if_neg (by omega)]
    obtain ⟨a, hall, hI, hW, hlen, htake⟩ :=
      DynamicArray.add_all_spec xs ⟨c.toNat, 0, List.replicate c.toNat none⟩
        (Nat.zero_le _) (by simp [DynamicArray.Wf])
    refine ⟨_, a, hinit, hall, ?_, ?_⟩
    · simpa [DynamicArray.size] using hlen
    · intro i h
      have hlen2 : a.len = xs.length := by simpa using hlen
      have htk : a.arr.take a.len = xs := by simpa using htake
      have hwlen : a.len ≤ a.arr.length := by
        rw [hW]; exact hI
      unfold DynamicArray.get
      rw [pyGet_natCast]
      rw [← List.getElem?_take_of_lt (l := a.arr) (by omega : i < a.len), htk]
      rw [List.getElem?_eq_getElem h, List.get_eq_getElem]
  · intro c xs a hall
    obtain ⟨hlen, htake⟩ := MerabsDinamicArr.add_all_eq_some_spec xs _ a hall
    have hlen2 : a.len = xs.length := by
      simpa [MerabsDinamicArr.init] using hlen
    have htk : a.arr.take a.len = xs := by
      simpa [MerabsDinamicArr.init] using htake
    have hwlen : a.len ≤ a.arr.length := by
      have := congrArg List.length htk
      simp only [List.length_take] at this
      omega
    refine ⟨by simpa [MerabsDinamicArr.size] using hlen2, ?_⟩
    intro i h
    unfold MerabsDinamicArr.get
    rw [if_neg (by omega)]
    rw [pyGet_natCast]
    rw [← List.getElem?_take_of_lt (l := a.arr) (by omega : i < a.len), htk]
    rw [List.getElem?_eq_getElem h, List.get_eq_getElem]

/-- C1 witness: `DynamicArray` at initial capacity 2 with adds `[1, 0]`,
and `MerabsDinamicArr` at its default capacity 8 with one add. -/
theorem c1_witness :
    ((0 : Int) ≤ 2 ∧
      ∃ a0 a : DynamicArray Nat, DynamicArray.init 2 = some a0 ∧
        a0.add_all [some 1, some 0] = some a ∧ a.size = [some 1, some 0].length ∧
        ∀ (i : Nat) (h : i < [some 1, some 0].length),
          a.get (i : Int) = some ([some (1 : Nat), some 0].get ⟨i, h⟩)) ∧
    ((MerabsDinamicArr.init 8).add_all [some 5] =
        some (⟨8, 1, [some 5, none, none, none, none, none, none, none]⟩ :
          MerabsDinamicArr Nat) ∧
      (⟨8, 1, [some 5, none, none, none, none, none, none, none]⟩ :
          MerabsDinamicArr Nat).size = [some (5 : Nat)].length ∧
      ∀ (i : Nat) (h : i < [some (5 : Nat)].length),
        (⟨8, 1, [some 5, none, none, none, none, none, none, none]⟩ :
          MerabsDinamicArr Nat).get (i : Int) = some ([some (5 : Nat)].get ⟨i, h⟩)) := by
  refine ⟨⟨by decide, c1_fresh_adds_size_and_get.1 2 (by decide) [some 1, some 0]⟩,
    by decide, c1_fresh_adds_size_and_get.2 8 [some 5] _ (by decide)⟩

/-- C2 (amended): `DynamicArray.add` grows capacity exactly when
`length + 1 ≥ capacity`, before writing the new element — capacity `0`
becomes `1`, otherwise it is doubled — and the first `length` live
elements are copied in order; in particular adding the first element at
capacity 1 raises the capacity to 2 before the write.
`MerabsDinamicArr.add` instead grows (by doubling only, with no special
case for capacity 0) exactly when `length ≥ capacity`. -/
theorem c2_growth_rule {β : Type u} :
    (∀ (a : DynamicArray β) (v : Option β), a.Inv → a.Wf →
      ∃ l, a.add v = some ⟨a.newcapacity, a.len + 1, l⟩ ∧
        (a.len + 1 ≥ a.capacity →
          a.newcapacity = (if a.capacity = 0 then 1 else a.capacity * 2)) ∧
        (a.len + 1 < a.capacity → a.newcapacity = a.capacity) ∧
        l.take a.len = a.arr.take a.len ∧
        l[a.len]? = some v ∧
        (a.capacity = 1 → a.len = 0 → a.newcapacity = 2)) ∧
    (∀ (a a2 : MerabsDinamicArr β) (v : Option β), a.add v = some a2 →
      a2.capacity =
        (if (a.len : Int) ≥ a.capacity then a.capacity * 2 else a.capacity)) := by
  constructor
  · intro a v hI hW
    obtain ⟨l, hadd, _, htake, hget, _⟩ := DynamicArray.add_spec a v hI hW
    refine ⟨l, hadd, ?_, ?_, htake, hget, ?_⟩
    · intro h
      unfold DynamicArray.newcapacity
      rw [if_pos h]
    · intro h
      unfold DynamicArray.newcapacity
      rw [if_neg (by omega)]
    · intro h1 h0
      unfold DynamicArray.newcapacity
      rw [if_pos (by omega), if_neg (by omega), h1]
  · intro a a2 v h
    exact (MerabsDinamicArr.add_eq_some_spec h).2.2.2.2.1

/-- C2 counterexample: on `MerabsDinamicArr` with capacity 1, adding the
first element (`length + 1 ≥ capacity` holds, so the claim requires the
capacity to become 2) leaves the capacity at 1: `_resize` only fires when
`length ≥ capacity`. -/
theorem c2_counterexample :
    ((MerabsDinamicArr.init 1 : MerabsDinamicArr Nat).add (some 0)).map
        MerabsDinamicArr.capacity = some 1 ∧
      some (1 : Int) ≠ some (2 : Int) := by
  decide

/-- C2 witness: `DynamicArray` at capacity 1, length 0 — the add doubles
the capacity to 2 before the write; `MerabsDinamicArr` at capacity 1,
length 1 (full) — the add doubles to 2. -/
theorem c2_witness :
    ((⟨1, 0, [none]⟩ : DynamicArray Nat).add (some 3)).map
        DynamicArray.capacity = some 2 ∧
    ((⟨1, 1, [some 7]⟩ : MerabsDinamicArr Nat).add (some 3)).map
        MerabsDinamicArr.capacity = some 2 := by
  constructor
  · obtain ⟨l, hadd, _, _, _, _, h2⟩ :=
      c2_growth_rule.1 (⟨1, 0, [none]⟩ : DynamicArray Nat) (some 3)
        (Nat.zero_le _) rfl
    rw [hadd]
    simp only [Option.map_some']
    exact congrArg some (h2 rfl rfl)
  · have hadd : (⟨1, 1, [some 7]⟩ : MerabsDinamicArr Nat).add (some 3) =
        some ⟨2, 2, [some 7, some 3]⟩ := by decide
    have h := c2_growth_rule.2 (⟨1, 1, [some 7]⟩ : MerabsDinamicArr Nat)
      ⟨2, 2, [some 7, some 3]⟩ (some 3) hadd
    rw [hadd]
    exact (congrArg some h).trans (by decide)

/-- C3 (amended): for every array state and value `x`, `add(x)` followed by
`remove_at(size()-1)` restores the prior `size()` in both classes, and
the call returns `x` from `DynamicArray.remove_at`; `MerabsDinamicArr`'s
`remove_at` has no `return` statement, so there the call returns `None`
instead of `x`. -/
theorem c3_add_remove_at_roundtrip {β : Type u} :
    (∀ (a : DynamicArray β) (x : Option β), a.Inv → a.Wf →
      ∃ (a1 : DynamicArray β) (a2 : DynamicArray β),
        a.add x = some a1 ∧
        a1.remove_at ((a1.size : Int) - 1) = some (x, a2) ∧
        a2.size = a.size) ∧
    (∀ (a a1 : MerabsDinamicArr β) (x : Option β), a.add x = some a1 →
      ∃ a2 : MerabsDinamicArr β,
        a1.remove_at ((a1.size : Int) - 1) = some (none, a2) ∧
        a2.size = a.size) := by
  constructor
  · intro a x hI hW
    obtain ⟨l, hadd, hlen, _, hget, hle⟩ := DynamicArray.add_spec a x hI hW
    obtain ⟨d, hd, hrm⟩ :=
      DynamicArray.remove_at_nat_spec ⟨a.newcapacity, a.len + 1, l⟩ a.len
        (by simp) (by simp only; omega)
    have hdx : d = x := by
      simp only at hd
      rw [hget] at hd
      exact (Option.some_injective _ hd).symm
    subst hdx
    refine ⟨⟨a.newcapacity, a.len + 1, l⟩,
      ⟨a.len + 1 - 1, a.len + 1 - 1, (l.take (a.len + 1)).eraseIdx a.len⟩,
      hadd, ?_, ?_⟩
    · have hidx : ((DynamicArray.size ⟨a.newcapacity, a.len + 1, l⟩ : Int) - 1)
          = ((a.len : Nat) : Int) := by
        simp [DynamicArray.size]
      rw [hidx]
      exact hrm
    · simp [DynamicArray.size]
  · intro a a1 x hadd
    obtain ⟨hlen1, hwf1, _, _, _, _⟩ := MerabsDinamicArr.add_eq_some_spec hadd
    have hrm := MerabsDinamicArr.merabs_remove_at_nat_spec a1 a.len (by omega) hwf1
    refine ⟨⟨a1.capacity, a1.len - 1,
      a1.arr.take a.len ++ (a1.arr.drop (a.len + 1)).take (a1.len - 1 - a.len)
        ++ none :: a1.arr.drop a1.len⟩, ?_, ?_⟩
    · have hidx : ((a1.size : Int) - 1) = ((a.len : Nat) : Int) := by
        simp [MerabsDinamicArr.size, hlen1]
      rw [hidx]
      exact hrm
    · simp [MerabsDinamicArr.size, hlen1]

/-- C3 counterexample: on a fresh `MerabsDinamicArr`, `add(5)` then
`remove_at(size()-1)` returns `None`, not the added value `5` — the claim
says the removed value is returned. -/
theorem c3_counterexample :
    (((MerabsDinamicArr.init 8 : MerabsDinamicArr Nat).add (some 5)).bind
        (fun a1 => a1.remove_at ((a1.size : Int) - 1))).map Prod.fst
      = some none ∧
    some (none : Option Nat) ≠ some (some 5) := by
  decide

/-- C3 witness: `DynamicArray` state `[7]` (capacity 1 backing list after
a rebuild) — `add 9` then `remove_at(size()-1)` returns `9` and size goes
back to 1; `MerabsDinamicArr` fresh add. -/
theorem c3_witness :
    (∃ (a1 : DynamicArray Nat) (a2 : DynamicArray Nat),
      (⟨1, 1, [some 7]⟩ : DynamicArray Nat).add (some 9) = some a1 ∧
      a1.remove_at ((a1.size : Int) - 1) = some (some 9, a2) ∧
      a2.size = (⟨1, 1, [some 7]⟩ : DynamicArray Nat).size) ∧
    (∃ a2 : MerabsDinamicArr Nat,
      (⟨8, 1, [some 5, none, none, none, none, none, none, none]⟩ :
          MerabsDinamicArr Nat).remove_at
        (((⟨8, 1, [some 5, none, none, none, none, none, none, none]⟩ :
          MerabsDinamicArr Nat).size : Int) - 1) = some (none, a2) ∧
      a2.size = (MerabsDinamicArr.init 8 : MerabsDinamicArr Nat).size) := by
  constructor
  · exact c3_add_remove_at_roundtrip.1 (⟨1, 1, [some 7]⟩ : DynamicArray Nat)
      (some 9) (le_refl 1) rfl
  · exact c3_add_remove_at_roundtrip.2 (MerabsDinamicArr.init 8)
      ⟨8, 1, [some 5, none, none, none, none, none, none, none]⟩ (some 5)
      (by decide)

/-- C4: for every array state and every index outside `[0, length)`
(negative or `≥ length`), `remove_at(index)` fails with the out-of-range
error in both classes; the bounds check is the first statement of both
methods, so no field is mutated — in the model the failing call yields no
successor state at all. -/
theorem c4_remove_at_out_of_range {β : Type u} :
    (∀ (a : DynamicArray β) (i : Int), i < 0 ∨ (a.len : Int) ≤ i →
      a.remove_at i = none) ∧
    (∀ (a : MerabsDinamicArr β) (i : Int), i < 0 ∨ (a.len : Int) ≤ i →
      a.remove_at i = none) := by
  constructor
  · intro a i h
    unfold DynamicArray.remove_at
    rw [if_pos h.symm]
  · intro a i h
    unfold MerabsDinamicArr.remove_at
    rw [if_pos h]

/-- C4 witness: an index past the end on `DynamicArray`, a negative index
on `MerabsDinamicArr`. -/
theorem c4_witness :
    (⟨2, 1, [some 3, none]⟩ : DynamicArray Nat).remove_at 5 = none ∧
    (⟨1, 1, [some 4]⟩ : MerabsDinamicArr Nat).remove_at (-1) = none := by
  exact ⟨c4_remove_at_out_of_range.1 _ 5 (by decide),
    c4_remove_at_out_of_range.2 _ (-1) (by decide)⟩

/-- C5 (amended): for every `c ≥ 0`, construction succeeds with length 0
and a backing store of exactly `c` empty slots — in both classes.  For
`c < 0`, `DynamicArray`'s constructor fails (`ValueError`, the spec's
`InvalidArgument`), but `MerabsDinamicArr`'s performs no validation at
all: it never fails, and a negative capacity is stored as given, with an
empty backing list (`[None] * c` is empty for `c ≤ 0`). -/
theorem c5_construction {β : Type u} :
    (∀ c : Int, c < 0 → (DynamicArray.init c : Option (DynamicArray β)) = none) ∧
    (∀ c : Int, 0 ≤ c → ∃ a : DynamicArray β, DynamicArray.init c = some a ∧
      a.size = 0 ∧ a.arr = List.replicate c.toNat none ∧ (a.arr.length : Int) = c) ∧
    (∀ c : Int, c < 0 →
      (MerabsDinamicArr.init c : MerabsDinamicArr β).capacity = c ∧
      (MerabsDinamicArr.init c : MerabsDinamicArr β).len = 0 ∧
      (MerabsDinamicArr.init c : MerabsDinamicArr β).arr = []) ∧
    (∀ c : Int, 0 ≤ c →
      (MerabsDinamicArr.init c : MerabsDinamicArr β).capacity = c ∧
      (MerabsDinamicArr.init c : MerabsDinamicArr β).size = 0 ∧
      (MerabsDinamicArr.init c : MerabsDinamicArr β).arr =
        List.replicate c.toNat none ∧
      (((MerabsDinamicArr.init c : MerabsDinamicArr β).arr.length : Int) = c)) := by
  refine ⟨?_, ?_, ?_, ?_⟩
  · intro c hc
    unfold DynamicArray.init
    rw [if_pos hc]
  · intro c hc
    refine ⟨⟨c.toNat, 0, List.replicate c.toNat none⟩, ?_, rfl, rfl, ?_⟩
    · unfold DynamicArray.init
      rw [if_neg (by omega)]
    · simp only [List.length_replicate]
      exact Int.toNat_of_nonneg hc
  · intro c hc
    refine ⟨rfl, rfl, ?_⟩
    show List.replicate c.toNat (none : Option β) = []
    rw [Int.toNat_of_nonpos (by omega)]
    rfl
  · intro c hc
    refine ⟨rfl, rfl, rfl, ?_⟩
    show ((List.replicate c.toNat (none : Option β)).length : Int) = c
    simp only [List.length_replicate]
    exact Int.toNat_of_nonneg hc

/-- C5 counterexample: `MerabsDinamicArr` constructed with capacity `-1`
does not fail — it returns a state (capacity field `-1`, empty backing
list), while the claim requires construction with a negative capacity to
fail with `InvalidArgument`. -/
theorem c5_counterexample :
    (MerabsDinamicArr.init (-1) : MerabsDinamicArr Nat) = ⟨-1, 0, []⟩ ∧
    (-1 : Int) < 0 := by
  decide

/-- C5 witness: `DynamicArray` at capacities `-3` and `2`,
`MerabsDinamicArr` at capacities `-2` and `3`. -/
theorem c5_witness :
    (DynamicArray.init (-3) : Option (DynamicArray Nat)) = none ∧
    (∃ a : DynamicArray Nat, DynamicArray.init 2 = some a ∧
      a.size = 0 ∧ a.arr = List.replicate (2 : Int).toNat none ∧
      (a.arr.length : Int) = 2) ∧
    ((MerabsDinamicArr.init (-2) : MerabsDinamicArr Nat).capacity = -2 ∧
      (MerabsDinamicArr.init (-2) : MerabsDinamicArr Nat).len = 0 ∧
      (MerabsDinamicArr.init (-2) : MerabsDinamicArr Nat).arr = []) ∧
    ((MerabsDinamicArr.init 3 : MerabsDinamicArr Nat).capacity = 3 ∧
      (MerabsDinamicArr.init 3 : MerabsDinamicArr Nat).size = 0 ∧
      (MerabsDinamicArr.init 3 : MerabsDinamicArr Nat).arr =
        List.replicate (3 : Int).toNat none ∧
      (((MerabsDinamicArr.init 3 : MerabsDinamicArr Nat).arr.length : Int) = 3)) := by
  exact ⟨c5_construction.1 (-3) (by decide), c5_construction.2.1 2 (by decide),
    c5_construction.2.2.1 (-2) (by decide), c5_construction.2.2.2 3 (by decide)⟩

/-- C6 (amended): a fresh `DynamicArray` iteration yields exactly
`length` values — the slots at indices `0 .. length-1` in index order.
`MerabsDinamicArr`'s iteration instead filters: it yields, in index
order, exactly the non-`None` slots of the live region, skipping any
live slot holding `None`, so it can yield fewer than `length` values. -/
theorem c6_iteration {β : Type u} :
    (∀ a : DynamicArray β, a.len ≤ a.arr.length →
      a.iter.length = a.size ∧
      ∀ i : Nat, i < a.size → a.iter[i]? = a.arr[i]?) ∧
    (∀ a : MerabsDinamicArr β,
      List.Sublist a.iter (a.arr.take a.len) ∧
      (∀ s ∈ a.iter, s.isSome = true) ∧
      (∀ s ∈ a.arr.take a.len, s.isSome = true → s ∈ a.iter)) := by
  constructor
  · intro a h
    constructor
    · show (a.arr.take a.len).length = a.len
      simp only [List.length_take]
      omega
    · intro i hi
      exact List.getElem?_take_of_lt hi
  · intro a
    refine ⟨List.filter_sublist _, ?_, ?_⟩
    · intro s hs
      exact (List.mem_filter.mp hs).2
    · intro s hs h
      exact List.mem_filter.mpr ⟨hs, h⟩

/-- C6 counterexample: `add(None)` on a fresh `MerabsDinamicArr` yields a
state of length 1 whose iteration yields 0 values — the live `None` slot
is skipped, while the claim requires exactly `length` values. -/
theorem c6_counterexample :
    (MerabsDinamicArr.init 8 : MerabsDinamicArr Nat).add none =
      some ⟨8, 1, [none, none, none, none, none, none, none, none]⟩ ∧
    (⟨8, 1, [none, none, none, none, none, none, none, none]⟩ :
      MerabsDinamicArr Nat).size = 1 ∧
    (⟨8, 1, [none, none, none, none, none, none, none, none]⟩ :
      MerabsDinamicArr Nat).iter.length = 0 ∧
    (0 : Nat) ≠ 1 := by
  decide

/-- C6 witness: a `DynamicArray` of length 1 and capacity 2. -/
theorem c6_witness :
    (⟨2, 1, [some 4, none]⟩ : DynamicArray Nat).iter.length
        = (⟨2, 1, [some 4, none]⟩ : DynamicArray Nat).size ∧
    (⟨2, 1, [some 4, none]⟩ : DynamicArray Nat).iter[0]?
        = (⟨2, 1, [some 4, none]⟩ : DynamicArray Nat).arr[0]? := by
  have h := c6_iteration.1 (⟨2, 1, [some 4, none]⟩ : DynamicArray Nat)
    (by decide)
  exact ⟨h.1, h.2 0 (by decide)⟩

/-- C7: for every array state (in either class) and every value absent
from the live region, `index_of` returns -1, `contains` returns false and
`remove` returns false leaving the array unchanged; for a present value,
`remove` performs `remove_at` on the first matching index and returns
true.  Absence is reported through the -1 / false results, never as an
error. -/
theorem c7_absent_present {β : Type u} [DecidableEq β] :
    (∀ (a : DynamicArray β) (q : Option β), a.len ≤ a.arr.length →
      (q ∉ a.arr.take a.len →
        a.index_of q = -1 ∧ a.contains q = false ∧
        a.remove q = some (false, a)) ∧
      (q ∈ a.arr.take a.len →
        ∃ j : Nat, a.index_of q = (j : Int) ∧ j < a.len ∧
          (a.arr.take a.len)[j]? = some q ∧
          (∀ k : Nat, k < j → (a.arr.take a.len)[k]? ≠ some q) ∧
          ∃ p : Option β × DynamicArray β,
            a.remove_at (j : Int) = some p ∧
            a.remove q = some (true, p.2))) ∧
    (∀ (a : MerabsDinamicArr β) (q : Option β), a.len ≤ a.arr.length →
      (q ∉ a.arr.take a.len →
        a.index_of q = -1 ∧ a.contains q = false ∧
        a.remove q = some (false, a)) ∧
      (q ∈ a.arr.take a.len →
        ∃ j : Nat, a.index_of q = (j : Int) ∧ j < a.len ∧
          (a.arr.take a.len)[j]? = some q ∧
          (∀ k : Nat, k < j → (a.arr.take a.len)[k]? ≠ some q) ∧
          ∃ p : Option β × MerabsDinamicArr β,
            a.remove_at (j : Int) = some p ∧
            a.remove q = some (true, p.2))) := by
  constructor
  · intro a q hlen
    have hrw : a.remove q =
        if a.index_of q = -1 then some (false, a)
        else (a.remove_at (a.index_of q)).map fun p => (true, p.2) := rfl
    constructor
    · intro habs
      have hidx : a.index_of q = -1 := by
        unfold DynamicArray.index_of
        rw [DynamicArray.idxD_eq_idxM]
        exact MerabsDinamicArr.idxM_of_not_mem q _ 0 habs
      refine ⟨hidx, ?_, ?_⟩
      · unfold DynamicArray.contains
        rw [hidx]
        decide
      · rw [hrw, if_pos hidx]
    · intro hmem
      obtain ⟨j, h1, h2, h3, h4⟩ := MerabsDinamicArr.idxM_of_mem 0 hmem
      have hidx : a.index_of q = (j : Int) := by
        unfold DynamicArray.index_of
        rw [DynamicArray.idxD_eq_idxM, h1]
        simp
      have hjlen : j < a.len := by
        simp only [List.length_take] at h2
        omega
      obtain ⟨d, _, hrm⟩ := DynamicArray.remove_at_nat_spec a j hjlen hlen
      refine ⟨j, hidx, hjlen, h3, h4, ⟨d, _⟩, hrm, ?_⟩
      rw [hrw, if_neg (by rw [hidx]; omega), hidx, hrm]
      rfl
  · intro a q hlen
    have hrw : a.remove q =
        if a.index_of q ≠ -1 then
          (a.remove_at (a.index_of q)).map fun p => (true, p.2)
        else some (false, a) := rfl
    constructor
    · intro habs
      have hidx : a.index_of q = -1 :=
        MerabsDinamicArr.idxM_of_not_mem q _ 0 habs
      refine ⟨hidx, ?_, ?_⟩
      · unfold MerabsDinamicArr.contains
        rw [hidx]
        decide
      · rw [hrw, if_neg (by rw [hidx]; omega)]
    · intro hmem
      obtain ⟨j, h1, h2, h3, h4⟩ := MerabsDinamicArr.idxM_of_mem 0 hmem
      have hidx : a.index_of q = (j : Int) := by
        unfold MerabsDinamicArr.index_of
        rw [h1]
        simp
      have hjlen : j < a.len := by
        simp only [List.length_take] at h2
        omega
      have hrm := MerabsDinamicArr.merabs_remove_at_nat_spec a j hjlen hlen
      refine ⟨j, hidx, hjlen, h3, h4, ⟨none, _⟩, hrm, ?_⟩
      rw [hrw, if_pos (by rw [hidx]; omega), hidx, hrm]
      rfl

/-- C7 witness: the state `[3, 5]` in both classes, with the absent value
`9` and the present value `5` (first match at index 1). -/
theorem c7_witness :
    ((⟨2, 2, [some 3, some 5]⟩ : DynamicArray Nat).index_of (some 9) = -1 ∧
      (⟨2, 2, [some 3, some 5]⟩ : DynamicArray Nat).contains (some 9) = false ∧
      (⟨2, 2, [some 3, some 5]⟩ : DynamicArray Nat).remove (some 9) =
        some (false, ⟨2, 2, [some 3, some 5]⟩)) ∧
    (∃ j : Nat,
      (⟨2, 2, [some 3, some 5]⟩ : DynamicArray Nat).index_of (some 5) = (j : Int) ∧
      j < (⟨2, 2, [some 3, some 5]⟩ : DynamicArray Nat).len ∧
      (([some 3, some 5] : List (Option Nat)).take 2)[j]? = some (some 5) ∧
      (∀ k : Nat, k < j →
        (([some 3, some 5] : List (Option Nat)).take 2)[k]? ≠ some (some 5)) ∧
      ∃ p : Option Nat × DynamicArray Nat,
        (⟨2, 2, [some 3, some 5]⟩ : DynamicArray Nat).remove_at (j : Int) = some p ∧
        (⟨2, 2, [some 3, some 5]⟩ : DynamicArray Nat).remove (some 5) =
          some (true, p.2)) ∧
    ((⟨2, 2, [some 3, some 5]⟩ : MerabsDinamicArr Nat).index_of (some 9) = -1 ∧
      (⟨2, 2, [some 3, some 5]⟩ : MerabsDinamicArr Nat).contains (some 9) = false ∧
      (⟨2, 2, [some 3, some 5]⟩ : MerabsDinamicArr Nat).remove (some 9) =
        some (false, ⟨2, 2, [some 3, some 5]⟩)) := by
  have hD := c7_absent_present.1 (⟨2, 2, [some 3, some 5]⟩ : DynamicArray Nat)
  have hM := c7_absent_present.2 (⟨2, 2, [some 3, some 5]⟩ : MerabsDinamicArr Nat)
  exact ⟨(hD (some 9) (by decide)).1 (by decide),
    (hD (some 5) (by decide)).2 (by decide),
    (hM (some 9) (by decide)).1 (by decide)⟩

/-! ### Per-operation invariant preservation helpers -/

namespace DynamicArray

variable {β : Type u}

theorem init_inv {c : Int} {a : DynamicArray β} (h : init c = some a) : a.Inv := by
  unfold init at h
  by_cases hc : c < 0
  · rw [if_pos hc] at h
    cases h
  · rw [if_neg hc] at h
    obtain rfl := Option.some_injective _ h
    exact Nat.zero_le _

theorem set_inv {a a2 : DynamicArray β} {i : Int} {v : Option β}
    (hI : a.Inv) (h : a.set i v = some a2) : a2.Inv := by
  unfold set at h
  obtain ⟨l, _, rfl⟩ := Option.map_eq_some'.mp h
  exact hI

theorem remove_at_inv {a a2 : DynamicArray β} {i : Int} {d : Option β}
    (h : a.remove_at i = some (d, a2)) : a2.Inv := by
  unfold remove_at at h
  by_cases hg : (a.len : Int) ≤ i ∨ i < 0
  · rw [if_pos hg] at h
    cases h
  · rw [if_neg hg] at h
    obtain ⟨data, _, h2⟩ := Option.bind_eq_some.mp h
    by_cases hw : a.len ≤ a.arr.length
    · rw [if_pos hw] at h2
      obtain ⟨-, h4⟩ := Prod.mk.injEq .. ▸ Option.some_injective _ h2
      rw [← h4]
      exact le_refl _
    · rw [if_neg hw] at h2
      cases h2

theorem remove_inv [DecidableEq β] {a a2 : DynamicArray β} {q : Option β}
    {b : Bool} (hI : a.Inv) (h : a.remove q = some (b, a2)) : a2.Inv := by
  have hrw : a.remove q =
      if a.index_of q = -1 then some (false, a)
      else (a.remove_at (a.index_of q)).map fun p => (true, p.2) := rfl
  rw [hrw] at h
  by_cases hidx : a.index_of q = -1
  · rw [if_pos hidx] at h
    obtain ⟨-, h4⟩ := Prod.mk.injEq .. ▸ Option.some_injective _ h
    rw [← h4]
    exact hI
  · rw [if_neg hidx] at h
    obtain ⟨⟨d, a3⟩, hrm, heq⟩ := Option.map_eq_some'.mp h
    obtain ⟨-, h4⟩ := Prod.mk.injEq .. ▸ heq
    rw [← h4]
    exact remove_at_inv hrm

theorem clear_inv {a a2 : DynamicArray β} (_hI : a.Inv) (h : a.clear = some a2) :
    a2.Inv := by
  unfold clear at h
  by_cases hw : a.len ≤ a.arr.length
  · rw [if_pos hw] at h
    obtain rfl := Option.some_injective _ h
    exact Nat.zero_le _
  · rw [if_neg hw] at h
    cases h

end DynamicArray

namespace MerabsDinamicArr

variable {β : Type u}

theorem set_at_inv {a a2 : MerabsDinamicArr β} {i : Int} {v : Option β}
    (hI : a.Inv) (h : a.set_at i v = some a2) : a2.Inv := by
  unfold set_at at h
  by_cases hg : i < 0 ∨ (a.len : Int) ≤ i
  · rw [if_pos hg] at h
    cases h
  · rw [if_neg hg] at h
    obtain ⟨l, _, rfl⟩ := Option.map_eq_some'.mp h
    exact hI

theorem merabs_remove_at_inv {a a2 : MerabsDinamicArr β} {i : Int} {d : Option β}
    (hI : a.Inv) (h : a.remove_at i = some (d, a2)) : a2.Inv := by
  unfold remove_at at h
  by_cases hg : i < 0 ∨ (a.len : Int) ≤ i
  · rw [if_pos hg] at h
    cases h
  · rw [if_neg hg] at h
    by_cases hw : a.len ≤ a.arr.length
    · rw [if_pos hw] at h
      obtain ⟨-, h4⟩ := Prod.mk.injEq .. ▸ Option.some_injective _ h
      rw [← h4]
      show ((a.len - 1 : Nat) : Int) ≤ a.capacity
      have : (a.len : Int) ≤ a.capacity := hI
      omega
    · rw [if_neg hw] at h
      cases h

theorem merabs_remove_inv [DecidableEq β] {a a2 : MerabsDinamicArr β} {q : Option β}
    {b : Bool} (hI : a.Inv) (h : a.remove q = some (b, a2)) : a2.Inv := by
  have hrw : a.remove q =
      if a.index_of q ≠ -1 then
        (a.remove_at (a.index_of q)).map fun p => (true, p.2)
      else some (false, a) := rfl
  rw [hrw] at h
  by_cases hidx : a.index_of q ≠ -1
  · rw [if_pos hidx] at h
    obtain ⟨⟨d, a3⟩, hrm, heq⟩ := Option.map_eq_some'.mp h
    obtain ⟨-, h4⟩ := Prod.mk.injEq .. ▸ heq
    rw [← h4]
    exact merabs_remove_at_inv hI hrm
  · rw [if_neg hidx] at h
    obtain ⟨-, h4⟩ := Prod.mk.injEq .. ▸ Option.some_injective _ h
    rw [← h4]
    exact hI

end MerabsDinamicArr

/-- C8 (amended): the invariant `0 ≤ length ≤ capacity` holds after every
`DynamicArray` construction and after every `MerabsDinamicArr`
construction with a non-negative capacity, and in both classes it is
preserved by every public mutating operation that returns normally —
`add`, `set` (`set_at`), `remove_at`, `remove` and `clear` (the last for
`DynamicArray` only: `MerabsDinamicArr` has no `clear`).
`MerabsDinamicArr`'s unvalidated constructor returns normally for a
negative capacity too and then violates the invariant — see the
counterexample. -/
theorem c8_invariant {β : Type u} [DecidableEq β] :
    (∀ (c : Int) (a : DynamicArray β), DynamicArray.init c = some a → a.Inv) ∧
    (∀ (a a2 : DynamicArray β) (v : Option β),
      a.Inv → a.add v = some a2 → a2.Inv) ∧
    (∀ (a a2 : DynamicArray β) (i : Int) (v : Option β),
      a.Inv → a.set i v = some a2 → a2.Inv) ∧
    (∀ (a a2 : DynamicArray β) (i : Int) (d : Option β),
      a.Inv → a.remove_at i = some (d, a2) → a2.Inv) ∧
    (∀ (a a2 : DynamicArray β) (q : Option β) (b : Bool),
      a.Inv → a.remove q = some (b, a2) → a2.Inv) ∧
    (∀ a a2 : DynamicArray β, a.Inv → a.clear = some a2 → a2.Inv) ∧
    (∀ c : Int, 0 ≤ c → (MerabsDinamicArr.init c : MerabsDinamicArr β).Inv) ∧
    (∀ (a a2 : MerabsDinamicArr β) (v : Option β),
      a.Inv → a.add v = some a2 → a2.Inv) ∧
    (∀ (a a2 : MerabsDinamicArr β) (i : Int) (v : Option β),
      a.Inv → a.set_at i v = some a2 → a2.Inv) ∧
    (∀ (a a2 : MerabsDinamicArr β) (i : Int) (d : Option β),
      a.Inv → a.remove_at i = some (d, a2) → a2.Inv) ∧
    (∀ (a a2 : MerabsDinamicArr β) (q : Option β) (b : Bool),
      a.Inv → a.remove q = some (b, a2) → a2.Inv) := by
  refine ⟨?_, ?_, ?_, ?_, ?_, ?_, ?_, ?_, ?_, ?_, ?_⟩
  · intro c a h
    exact DynamicArray.init_inv h
  · intro a a2 v _ h
    exact (DynamicArray.add_eq_some_inv h).2
  · intro a a2 i v hI h
    exact DynamicArray.set_inv hI h
  · intro a a2 i d _ h
    exact DynamicArray.remove_at_inv h
  · intro a a2 q b hI h
    exact DynamicArray.remove_inv hI h
  · intro a a2 hI h
    exact DynamicArray.clear_inv hI h
  · intro c hc
    exact hc
  · intro a a2 v _ h
    exact (MerabsDinamicArr.add_eq_some_spec h).2.2.2.2.2
  · intro a a2 i v hI h
    exact MerabsDinamicArr.set_at_inv hI h
  · intro a a2 i d hI h
    exact MerabsDinamicArr.merabs_remove_at_inv hI h
  · intro a a2 q b hI h
    exact MerabsDinamicArr.merabs_remove_inv hI h

/-- C8 counterexample: `MerabsDinamicArr(-1)` returns normally (the
constructor performs no validation) with length 0 and capacity -1, so
`0 ≤ length ≤ capacity` fails immediately after a normally-returning
construction — the claim as stated is false of the program. -/
theorem c8_counterexample :
    (MerabsDinamicArr.init (-1) : MerabsDinamicArr Nat).len = 0 ∧
    (MerabsDinamicArr.init (-1) : MerabsDinamicArr Nat).capacity = -1 ∧
    ¬(MerabsDinamicArr.init (-1) : MerabsDinamicArr Nat).Inv := by
  refine ⟨rfl, rfl, fun h => ?_⟩
  have h2 : ((0 : Nat) : Int) ≤ -1 := h
  omega

/-- C8 witness: one concrete invariant-preserving step per operation of
each class. -/
theorem c8_witness :
    (⟨2, 0, [none, none]⟩ : DynamicArray Nat).Inv ∧
    (⟨4, 2, [some 1, some 2, none, none]⟩ : DynamicArray Nat).Inv ∧
    (⟨2, 1, [some 7, none]⟩ : DynamicArray Nat).Inv ∧
    (⟨1, 1, [some 2]⟩ : DynamicArray Nat).Inv ∧
    (⟨1, 1, [some 1]⟩ : DynamicArray Nat).Inv ∧
    (⟨2, 0, [none, none]⟩ : DynamicArray Nat).Inv ∧
    (MerabsDinamicArr.init 3 : MerabsDinamicArr Nat).Inv ∧
    (⟨2, 2, [some 1, some 2]⟩ : MerabsDinamicArr Nat).Inv ∧
    (⟨2, 1, [some 7, none]⟩ : MerabsDinamicArr Nat).Inv ∧
    (⟨2, 1, [some 2, none]⟩ : MerabsDinamicArr Nat).Inv ∧
    (⟨2, 1, [some 2, none]⟩ : MerabsDinamicArr Nat).Inv := by
  refine ⟨?_, ?_, ?_, ?_, ?_, ?_, ?_, ?_, ?_, ?_, ?_⟩
  · exact c8_invariant.1 2 _ (by decide)
  · exact c8_invariant.2.1 ⟨2, 1, [some 1, none]⟩ _ (some 2)
      (by show (1 : Nat) ≤ 2; decide) (by decide)
  · exact c8_invariant.2.2.1 ⟨2, 1, [some 1, none]⟩ _ 0 (some 7)
      (by show (1 : Nat) ≤ 2; decide) (by decide)
  · exact c8_invariant.2.2.2.1 ⟨2, 2, [some 1, some 2]⟩ _ 0 (some 1)
      (by show (2 : Nat) ≤ 2; decide) (by decide)
  · exact c8_invariant.2.2.2.2.1 ⟨2, 2, [some 1, some 2]⟩ _ (some 2) true
      (by show (2 : Nat) ≤ 2; decide) (by decide)
  · exact c8_invariant.2.2.2.2.2.1 ⟨2, 1, [some 1, none]⟩ _
      (by show (1 : Nat) ≤ 2; decide) (by decide)
  · exact c8_invariant.2.2.2.2.2.2.1 3 (by decide)
  · exact c8_invariant.2.2.2.2.2.2.2.1 ⟨2, 1, [some 1, none]⟩ _ (some 2)
      (by show ((1 : Nat) : Int) ≤ 2; decide) (by decide)
  · exact c8_invariant.2.2.2.2.2.2.2.2.1 ⟨2, 1, [some 1, none]⟩ _ 0 (some 7)
      (by show ((1 : Nat) : Int) ≤ 2; decide) (by decide)
  · exact c8_invariant.2.2.2.2.2.2.2.2.2.1 ⟨2, 2, [some 1, some 2]⟩ _ 0 none
      (by show ((2 : Nat) : Int) ≤ 2; decide) (by decide)
  · exact c8_invariant.2.2.2.2.2.2.2.2.2.2 ⟨2, 2, [some 1, some 2]⟩ _ (some 1)
      true (by show ((2 : Nat) : Int) ≤ 2; decide) (by decide)

/-- C9: a `MerabsDinamicArr` constructed with initial capacity 0 can
never have an element appended: `_resize` fires (`0 ≥ 0`) but doubles the
capacity to `0 * 2 = 0`, so the backing list stays empty and the write
`self.arr[self.len]` raises an uncaught `IndexError` (`none` here).  The
mutations `_resize` performed before the raise (`capacity = 0 * 2`,
`arr = []`) leave the state extensionally identical to the fresh one, so
every later `add` fails the same way — the first conjunct quantifies over
every value. -/
theorem c9_capacity_zero_add_always_fails {β : Type u} :
    (∀ x : Option β, (MerabsDinamicArr.init 0 : MerabsDinamicArr β).add x = none) ∧
    (MerabsDinamicArr.init 0 : MerabsDinamicArr β).resize =
      some (MerabsDinamicArr.init 0) := by
  exact ⟨fun x => rfl, rfl⟩

/-- C10: on a well-formed `DynamicArray` whose dead slots hold the empty
marker (the state every sequence of constructor / `add` / `remove_at` /
`remove` / `clear` calls produces), the raw accessors act on the backing
store: for `length ≤ i < capacity`, `get(i)` returns `None` without
raising, and `set(i, v)` writes the slot without changing `length`, so
the written value is invisible to `size()`, iteration and `index_of`. -/
theorem c10_raw_accessors_dead_region {β : Type u} [DecidableEq β] :
    ∀ a : DynamicArray β, a.Wf → a.DeadNone →
      ∀ i : Int, (a.len : Int) ≤ i → i < (a.capacity : Int) →
        a.get i = some none ∧
        ∀ v : Option β, ∃ a2 : DynamicArray β, a.set i v = some a2 ∧
          a2.len = a.len ∧ a2.size = a.size ∧ a2.iter = a.iter ∧
          ∀ q : Option β, a2.index_of q = a.index_of q := by
  intro a hW hD i hlo hhi
  have hWl : a.arr.length = a.capacity := hW
  have h0 : 0 ≤ i := by omega
  have hiN : i.toNat < a.arr.length := by omega
  have hiL : a.len ≤ i.toNat := by omega
  constructor
  · unfold DynamicArray.get pyGet
    rw [if_pos h0]
    exact hD i.toNat hiL hiN
  · intro v
    refine ⟨⟨a.capacity, a.len, a.arr.set i.toNat v⟩, ?_, rfl, rfl, ?_, ?_⟩
    · unfold DynamicArray.set pySet
      rw [if_pos h0, if_pos (by omega)]
      rfl
    · show (a.arr.set i.toNat v).take a.len = a.arr.take a.len
      exact take_set_of_le _ _ _ _ hiL
    · intro q
      show DynamicArray.idxD q ((a.arr.set i.toNat v).take a.len) 0
          = DynamicArray.idxD q (a.arr.take a.len) 0
      rw [take_set_of_le _ _ _ _ hiL]

/-- C10 witness: capacity 2, length 0 — reading dead slot 1 gives `None`,
writing `7` there changes neither size nor iteration nor `index_of 7`. -/
theorem c10_witness :
    (⟨2, 0, [none, none]⟩ : DynamicArray Nat).get 1 = some none ∧
    (⟨2, 0, [none, none]⟩ : DynamicArray Nat).set 1 (some 7) =
      some ⟨2, 0, [none, some 7]⟩ ∧
    (⟨2, 0, [none, some 7]⟩ : DynamicArray Nat).size
      = (⟨2, 0, [none, none]⟩ : DynamicArray Nat).size ∧
    (⟨2, 0, [none, some 7]⟩ : DynamicArray Nat).iter
      = (⟨2, 0, [none, none]⟩ : DynamicArray Nat).iter ∧
    (⟨2, 0, [none, some 7]⟩ : DynamicArray Nat).index_of (some 7)
      = (⟨2, 0, [none, none]⟩ : DynamicArray Nat).index_of (some 7) := by
  have h := c10_raw_accessors_dead_region (⟨2, 0, [none, none]⟩ : DynamicArray Nat)
    rfl
    (by
      intro i h1 h2
      simp only [List.length_cons, List.length_nil] at h2
      interval_cases i
      · rfl
      · rfl)
    1 (by decide) (by decide)
  obtain ⟨a2, hs, _, hsize, hit, hq⟩ := h.2 (some 7)
  have ha2 : a2 = ⟨2, 0, [none, some 7]⟩ := by
    have hc : (⟨2, 0, [none, none]⟩ : DynamicArray Nat).set 1 (some 7) =
        some ⟨2, 0, [none, some 7]⟩ := by decide
    exact Option.some_injective _ (hs.symm.trans hc)
  subst ha2
  exact ⟨h.1, hs, hsize, hit, hq (some 7)⟩
